import Mathlib

/-!
Verification of the student-performance-analysis web application
(single source file `app.py`) against its natural-language specification.

The Python functions are shallowly embedded as Lean definitions:

* machine floats become `ℚ` (the arithmetic the claims are about is exact
  decimal arithmetic on scores and percentages);
* the sqlite tables become lists of structures, and each route handler
  that the claims mention becomes a pure function from the old table
  state and the request parameters to the new table state plus a
  success flag (a sqlite transaction either commits in full or, on an
  exception, is rolled back, so one atomic function per handler is the
  faithful picture);
* the process-global `random` generator, seeded with the fixed constant
  42 at module load, becomes an explicitly threaded deterministic
  stream of natural numbers.
-/

namespace App

/-! ## Aggregate Calculator (app.py lines 385-392 and 789-796) -/

/-- Performance tier from the final average score, from the if/elif chain
that appears identically in `init_database` and `teacher_add_student`. -/
def performance_tier (avg : ℚ) : String :=
  if avg ≥ 80 then "Excellent"
  else if avg ≥ 65 then "Good"
  else if avg ≥ 50 then "Average"
  else "Needs Improvement"

/-! ## Attendance derivation (app.py lines 336-337 and 773-775) -/

/-- Python `int()` applied to a rational: truncation toward zero. -/
def pyInt (q : ℚ) : ℤ := if 0 ≤ q then ⌊q⌋ else ⌈q⌉

/-- `days_present = int((attendance_percent / 100) * total_days)`. -/
def days_present (att : ℚ) (total : ℤ) : ℤ := pyInt (att / 100 * total)

/-- `days_absent = total_days - days_present`. -/
def days_absent (att : ℚ) (total : ℤ) : ℤ := total - days_present att total

/-! ## Student records (the `students` table) -/

/-- A row of the `students` table, as built by `init_database` and
`teacher_add_student`.  The 6 subjects are indexed in the source order
math, reading, writing, science, social_science, computer_science; the
3 exams in the order unit_test, midterm, final. -/
structure Student where
  student_id : String
  student_name : String
  grade_level : ℤ
  sect : String
  gender : String
  race_ethnicity : String
  parental_education : String
  lunch : String
  test_prep : String
  attendance_percent : ℚ
  dpresent : ℤ
  dabsent : ℤ
  total_days : ℤ
  exam_scores : Fin 6 → Fin 3 → ℚ
  final_total_score : ℚ
  final_average_score : ℚ
  final_performance_level : String

/-! ## Cohort statistics (app.py lines 654-668, `teacher_dashboard`) -/

/-- `pass_count`: students of the fetched set with `final_average_score >= 50`. -/
def pass_count (students : List Student) : ℕ :=
  students.countP (fun s => decide (50 ≤ s.final_average_score))

/-- `pass_rate = (pass_count / total_students) * 100`, and `0` for an
empty set (the `else` branch of `teacher_dashboard`). -/
def pass_rate (students : List Student) : ℚ :=
  if students.length = 0 then 0
  else ((pass_count students : ℚ) / students.length) * 100

/-- `at_risk_count`: students with `final_average_score < 50 or
attendance_percent < 75`. -/
def at_risk_count (students : List Student) : ℕ :=
  students.countP
    (fun s => decide (s.final_average_score < 50) || decide (s.attendance_percent < 75))

/-- Stated from the claim for comparison with `pass_rate`: the pass rate
as the fraction of records with `final_average_score >= 50`. -/
def claim_pass_fraction (students : List Student) : ℚ :=
  (pass_count students : ℚ) / students.length

/-- Stated from the claim for comparison with `at_risk_count`: the number
of records with `final_average_score < 50` or `attendance_percent < 75`
(inclusive logical or). -/
def claim_at_risk (students : List Student) : ℕ :=
  students.countP
    (fun s => decide (s.final_average_score < 50 ∨ s.attendance_percent < 75))

/-! ## Teacher assignments (the `teacher_section_map` table) -/

/-- A row of `teacher_section_map`.  The table carries
`UNIQUE(grade_level, section)` over all rows, active or not. -/
structure TSMap where
  teacher_user_id : ℕ
  grade_level : ℤ
  sect : String
  is_active : Bool
deriving DecidableEq

/-- `get_teacher_assignment` (app.py lines 127-139): the first row of
`teacher_section_map` with this teacher and `is_active = 1`, if any. -/
def get_teacher_assignment (maps : List TSMap) (uid : ℕ) : Option (ℤ × String) :=
  match maps.find? (fun m => decide (m.teacher_user_id = uid) && m.is_active) with
  | some m => some (m.grade_level, m.sect)
  | none => none

/-- `check_teacher_access` (app.py lines 141-152).  The guard
`if not teacher_grade or not teacher_section` uses Python truthiness, so
a grade of `0` or an empty section string is treated like a missing
assignment. -/
def check_teacher_access (role : String) (maps : List TSMap) (uid : ℕ)
    (sgrade : ℤ) (ssection : String) : Bool :=
  if role = "admin" then true
  else if role ≠ "teacher" then false
  else
    match get_teacher_assignment maps uid with
    | none => false
    | some (g, s) =>
      if g = 0 ∨ s = "" then false
      else decide (g = sgrade) && decide (s = ssection)

/-- The `UPDATE teacher_section_map SET is_active = 0 WHERE
teacher_user_id = ?` statement of `admin_assign_teacher`. -/
def deactivateFor (uid : ℕ) (maps : List TSMap) : List TSMap :=
  maps.map (fun m => if m.teacher_user_id = uid then { m with is_active := false } else m)

/-- `admin_assign_teacher` (app.py lines 1164-1204) as a transaction on
the `teacher_section_map` table: returns the new table and a success
flag.  First branch: the explicit `is_active = 1` conflict check.
Second branch: the `UNIQUE(grade_level, section)` constraint of the
table (app.py lines 202-212) makes the `INSERT` raise even when only an
inactive row holds the pair; the exception handler then skips `commit`,
so the whole transaction (including the deactivating `UPDATE`) is
rolled back. -/
def admin_assign_teacher (maps : List TSMap) (uid : ℕ) (g : ℤ) (s : String) :
    List TSMap × Bool :=
  if maps.any (fun m => decide (m.grade_level = g) && decide (m.sect = s) && m.is_active)
  then (maps, false)
  else if maps.any (fun m => decide (m.grade_level = g) && decide (m.sect = s))
  then (maps, false)
  else (deactivateFor uid maps ++ [⟨uid, g, s, true⟩], true)

/-- At most one active `teacher_section_map` row per (grade, section). -/
def activePairUnique (maps : List TSMap) : Prop :=
  ∀ g s, maps.countP
    (fun m => decide (m.grade_level = g) && decide (m.sect = s) && m.is_active) ≤ 1

/-! ## Decimal digits and zero-padded identifiers -/

/-- The character for one decimal digit. -/
def digitChar (d : ℕ) : Char :=
  match d with
  | 0 => '0' | 1 => '1' | 2 => '2' | 3 => '3' | 4 => '4'
  | 5 => '5' | 6 => '6' | 7 => '7' | 8 => '8' | 9 => '9'
  | _ => 'X'

/-- Numeric value of a decimal digit character. -/
def charVal (c : Char) : ℕ := c.toNat - 48

/-- Whether a character is one of the decimal digit characters. -/
def isDigitChar (c : Char) : Bool := 48 ≤ c.toNat && c.toNat ≤ 57

/-- Big-endian decimal digit characters of `n`, with explicit fuel so the
recursion is structural (empty for `n = 0`). -/
def digitsBEAux : ℕ → ℕ → List Char
  | 0, _ => []
  | fuel + 1, n =>
    if n = 0 then [] else digitsBEAux fuel (n / 10) ++ [digitChar (n % 10)]

/-- Big-endian decimal digit characters of `n` (empty for `n = 0`). -/
def digitsBE (n : ℕ) : List Char := digitsBEAux n n

/-- The Python format `S` followed by the number zero-padded to at least
four digits: just the digit part, as characters. -/
def pad4 (n : ℕ) : List Char :=
  List.replicate (4 - (digitsBE n).length) '0' ++ digitsBE n

/-- Value of a big-endian list of decimal digit characters (Python `int`
restricted to nonempty all-digit strings, the only shape this program
feeds it under the hypotheses of the claims). -/
def valDigits (l : List Char) : ℕ := l.foldl (fun a c => a * 10 + charVal c) 0

/-- Parse of a nonempty all-digit character list, `none` otherwise,
modelling the `int(last_id[1:])` call with its surrounding `try`. -/
def parseNat? (l : List Char) : Option ℕ :=
  if l ≠ [] ∧ l.all isDigitChar then some (valDigits l) else none

/-! ## `get_next_student_id` (app.py lines 154-171) -/

/-- Byte-wise lexicographic order on character lists: the sqlite `ORDER BY
student_id DESC` comparison on the ASCII identifiers this table holds. -/
def lexLe : List Char → List Char → Bool
  | [], _ => true
  | _ :: _, [] => false
  | a :: as, b :: bs => if a = b then lexLe as bs else decide (a < b)

/-- The row produced by `ORDER BY student_id DESC LIMIT 1`: the
lexicographically greatest identifier, `none` on an empty table. -/
def maxLex (l : List String) : Option String :=
  match l with
  | [] => none
  | x :: xs => some (xs.foldl (fun acc y => if lexLe acc.data y.data then y else acc) x)

/-- `get_next_student_id`: take the lexicographically last identifier; if
it starts with `S` and the rest parses as an integer, return `S` plus the
successor zero-padded to four digits; otherwise (or on an empty table)
return `S0001`. -/
def get_next_student_id (ids : List String) : String :=
  match maxLex ids with
  | none => "S0001"
  | some last =>
    match last.data with
    | c :: rest =>
      if c = 'S' then
        match parseNat? rest with
        | some num => ⟨'S' :: pad4 (num + 1)⟩
        | none => "S0001"
      else "S0001"
    | [] => "S0001"

/-! ## Import-batch identifier assignment (app.py lines 281-287) -/

/-- The synthesized index-based identifier of row `idx`. -/
def fallbackId (idx : ℕ) : String := ⟨'S' :: pad4 (idx + 1)⟩

/-- The `str(...).strip()` plus blank/`nan` guard applied to the provided
`student_id` cell: a usable provided value, or `none`. -/
def normProvided (r : Option String) : Option String :=
  match r with
  | some v => if v = "" ∨ v = "nan" then none else some v
  | none => none

/-- Identifier chosen for one row: the provided value if usable, else the
index-based form; then, if the candidate was already used in this batch,
the index-based form (with no further collision check). -/
def chooseId (r : Option String) (idx : ℕ) (seen : List String) : String :=
  let id0 := match normProvided r with
    | some v => v
    | none => fallbackId idx
  if id0 ∈ seen then fallbackId idx else id0

/-- Identifier assignment over a batch, threading the row index and the
`student_ids_seen` set. -/
def assignIdsAux : List (Option String) → ℕ → List String → List String
  | [], _, _ => []
  | r :: rs, idx, seen =>
    let sid := chooseId r idx seen
    sid :: assignIdsAux rs (idx + 1) (sid :: seen)

/-- Identifiers chosen for a whole import batch, in row order. -/
def assignIds (rows : List (Option String)) : List String := assignIdsAux rows 0 []

/-! ## The deterministic pseudo-random stream (app.py lines 62-63)

The module seeds the global `random` generator with the constant 42 at
process start.  The claims depend on the generator being one fixed
deterministic stream, not on its particular values, so it is embedded
as a linear-congruential state on `ℕ`. -/

/-- One step of the deterministic generator state. -/
def rngNext (s : ℕ) : ℕ := (1103515245 * s + 12345) % 2 ^ 31

/-- The fixed seed set at process start. -/
def seed0 : ℕ := 42

/-- `random.randint(lo, hi)`: a value in `[lo, hi]` plus the new state. -/
def randIntR (lo hi s : ℕ) : ℕ × ℕ :=
  let t := rngNext s
  (lo + t % (hi + 1 - lo), t)

/-- `random.choice(xs)`: an element of `xs` plus the new state. -/
def randChoice (xs : List String) (s : ℕ) : String × ℕ :=
  let t := rngNext s
  (xs.getD (t % xs.length) "", t)

/-- `random.uniform(lo, hi)`: a rational in `[lo, hi]` plus the new state. -/
def randUniform (lo hi : ℚ) (s : ℕ) : ℚ × ℕ :=
  let t := rngNext s
  (lo + (hi - lo) * (t % 1001) / 1000, t)

/-- Rounding to two decimal places, Python `round(x, 2)`. -/
def round2 (q : ℚ) : ℚ := (round (q * 100) : ℚ) / 100

/-! ## Record Synthesizer (app.py lines 278-415, `init_database`) -/

/-- One raw CSV row after column standardization, with the per-field
`str(...).strip()` and `pd.isna` guards collapsed into `Option`: a field
is `some` exactly when the cell is present, non-blank and parseable. -/
structure RawRow where
  student_id : Option String
  student_name : Option String
  grade_level : Option ℤ
  sect : Option String
  gender : Option String
  race_ethnicity : Option String
  parental_education : Option String
  lunch : Option String
  test_prep : Option String
  attendance_percent : Option ℚ
  total_days : Option ℤ
  base : Fin 6 → Option ℚ
  exam : Fin 6 → Fin 3 → Option ℚ

/-- The fixed 49-name pool used when a row has no name. -/
def namePool : List String :=
  ["Aarav Singh", "Kavya Khan", "Avni Mehta", "Priya Ahuja", "Ananya Jain",
   "Rahul Verma", "Aarav Gupta", "Ishaan Khan", "Saanvi Roy", "Aarav Ahuja",
   "Ishaan Ahuja", "Rahul Khan", "Riya Jain", "Krishna Sharma", "Yash Nair",
   "Siddharth Kulkarni", "Neha Singh", "Avni Reddy", "Yash Das", "Arjun Gupta",
   "Pooja Mehta", "Nikhil Chatterjee", "Vikram Singh", "Simran Verma", "Tanvi Bose",
   "Sakshi Mehta", "Naina Joshi", "Ananya Ahuja", "Meera Roy", "Harsh Chatterjee",
   "Shreya Reddy", "Siddharth Gupta", "Aditi Khan", "Yash Patel", "Ananya Khan",
   "Ira Mehta", "Pooja Singh", "Riya Chatterjee", "Diya Chatterjee", "Nikhil Reddy",
   "Priya Singh", "Siddharth Gupta T.", "Zara Nair", "Sakshi Khan", "Diya Bose",
   "Pooja Singh U.", "Siddharth Ahuja", "Kavya Das", "Zara Mehta"]

/-- Use the provided value, or draw one from the generator. -/
def getOrRand {α : Type} (v : Option α) (draw : ℕ → α × ℕ) (s : ℕ) : α × ℕ :=
  match v with
  | some x => (x, s)
  | none => draw s

/-- One exam score of one subject: an existing score is used verbatim;
a missing one is `round(max(0, min(100, base + uniform(-10, 10))), 2)`. -/
def synthExam (base : ℚ) (e : Option ℚ) (s : ℕ) : ℚ × ℕ :=
  match e with
  | some v => (v, s)
  | none =>
    let p := randUniform (-10) 10 s
    (round2 (max 0 (min 100 (base + p.1))), p.2)

/-- The three exam scores of one subject: a missing base score is drawn
as `randint(30, 100)` first, then the exams are filled in source order
unit_test, midterm, final. -/
def synthSubject (b : Option ℚ) (es : Fin 3 → Option ℚ) (s : ℕ) :
    (Fin 3 → ℚ) × ℕ :=
  let pb := getOrRand b (fun t => let p := randIntR 30 100 t; ((p.1 : ℚ), p.2)) s
  let p0 := synthExam pb.1 (es 0) pb.2
  let p1 := synthExam pb.1 (es 1) p0.2
  let p2 := synthExam pb.1 (es 2) p1.2
  (![p0.1, p1.1, p2.1], p2.2)

/-- All 18 exam scores of a row, subjects in source order. -/
def synthSubjects (r : RawRow) (s : ℕ) : (Fin 6 → Fin 3 → ℚ) × ℕ :=
  let a0 := synthSubject (r.base 0) (r.exam 0) s
  let a1 := synthSubject (r.base 1) (r.exam 1) a0.2
  let a2 := synthSubject (r.base 2) (r.exam 2) a1.2
  let a3 := synthSubject (r.base 3) (r.exam 3) a2.2
  let a4 := synthSubject (r.base 4) (r.exam 4) a3.2
  let a5 := synthSubject (r.base 5) (r.exam 5) a4.2
  (![a0.1, a1.1, a2.1, a3.1, a4.1, a5.1], a5.2)

/-- One synthesized student record, given the already-chosen identifier
and the row index, threading the generator in the source order of the
field fills. -/
def synthesizeRow (idx : ℕ) (sid : String) (r : RawRow) (s : ℕ) :
    Student × ℕ :=
  let nm := match r.student_name with
    | some v => v
    | none => namePool.getD (idx % namePool.length) ""
  let pg := getOrRand r.grade_level (fun t => let p := randIntR 9 12 t; ((p.1 : ℤ), p.2)) s
  let psec := getOrRand r.sect (randChoice ["A", "B", "C", "D"]) pg.2
  let pgen := getOrRand r.gender (randChoice ["male", "female"]) psec.2
  let prace := getOrRand r.race_ethnicity
    (randChoice ["group A", "group B", "group C", "group D", "group E"]) pgen.2
  let ppar := getOrRand r.parental_education
    (randChoice ["high school", "some high school", "some college",
                 "associate\x27s degree", "bachelor\x27s degree", "master\x27s degree"]) prace.2
  let plun := getOrRand r.lunch (randChoice ["standard", "free/reduced"]) ppar.2
  let ptp := getOrRand r.test_prep (randChoice ["none", "completed"]) plun.2
  let patt := getOrRand r.attendance_percent
    (fun t => let p := randUniform 60 100 t; (round2 p.1, p.2)) ptp.2
  let total := r.total_days.getD 200
  let pex := synthSubjects r patt.2
  let finals : List ℚ := List.ofFn (fun i : Fin 6 => pex.1 i 2)
  let ftotal := finals.sum
  let favg := ftotal / 6
  ({ student_id := sid
     student_name := nm
     grade_level := pg.1
     sect := psec.1
     gender := pgen.1
     race_ethnicity := prace.1
     parental_education := ppar.1
     lunch := plun.1
     test_prep := ptp.1
     attendance_percent := patt.1
     dpresent := days_present patt.1 total
     dabsent := days_absent patt.1 total
     total_days := total
     exam_scores := pex.1
     final_total_score := round2 ftotal
     final_average_score := round2 favg
     final_performance_level := performance_tier favg }, pex.2)

/-! ## Import Orchestrator (app.py lines 173-439, `init_database`) -/

/-- The per-row loop of `init_database`: choose the identifier, synthesize
the record, thread the index, the seen set and the generator. -/
def importRowsAux : List RawRow → ℕ → List String → ℕ → List Student
  | [], _, _, _ => []
  | r :: rs, idx, seen, s =>
    let sid := chooseId r.student_id idx seen
    let p := synthesizeRow idx sid r s
    p.1 :: importRowsAux rs (idx + 1) (sid :: seen) p.2

/-- One run of the import pipeline from process start: the generator is
at the fixed seed. -/
def importRows (rows : List RawRow) : List Student := importRowsAux rows 0 [] seed0

/-- `INSERT OR REPLACE INTO students`: replace the row with the same
primary key, or append. -/
def upsert (store : List Student) (stu : Student) : List Student :=
  if store.any (fun t => t.student_id = stu.student_id)
  then store.map (fun t => if t.student_id = stu.student_id then stu else t)
  else store ++ [stu]

/-- Persisting a batch of synthesized records. -/
def importInto (store : List Student) (recs : List Student) : List Student :=
  recs.foldl upsert store

/-- `init_database` as a function of the `db_exists` flag, the
`FORCE_REIMPORT` flag, the stored records and the input rows: skip when
the database exists and force is off; the `if students_data:` guard
(app.py lines 417-425) runs the delete and the inserts only when the
synthesized batch is non-empty, and the `DELETE FROM students` inside
it only under force. -/
def init_database (dbExists force : Bool) (store : List Student)
    (rows : List RawRow) : List Student :=
  if dbExists ∧ ¬force then store
  else
    let recs := importRows rows
    if recs.isEmpty then store
    else importInto (if force then [] else store) recs

/-! ## `teacher_add_student` (app.py lines 731-826) -/

/-- The 18 generated default exam scores, `round(uniform(50, 90), 2)`
each, drawn subject-major in source order. -/
def drawScores : ℕ → ℕ → List ℚ × ℕ
  | 0, s => ([], s)
  | n + 1, s =>
    let p := randUniform 50 90 s
    let rest := drawScores n p.2
    (round2 p.1 :: rest.1, rest.2)

/-- The POST branch of `teacher_add_student` as a transaction on the
`students` table: capacity check first, then the required-name check,
then the insert.  An `INSERT` on an already-present primary key raises,
and the handler rolls back, leaving the table unchanged. -/
def teacher_add_student (store : List Student) (tgrade : ℤ) (tsect : String)
    (name gender race parental lunch tprep : String) (att : ℚ) (s : ℕ) :
    List Student × Bool :=
  let cnt := store.countP (fun t => decide (t.grade_level = tgrade) && decide (t.sect = tsect))
  if 60 ≤ cnt then (store, false)
  else if name = "" then (store, false)
  else
    let sid := get_next_student_id (store.map Student.student_id)
    if store.any (fun t => t.student_id = sid) then (store, false)
    else
      let total : ℤ := 200
      let p := drawScores 18 s
      let scores : Fin 6 → Fin 3 → ℚ := fun i j => p.1.getD (i.val * 3 + j.val) 0
      let finals : List ℚ := List.ofFn (fun i : Fin 6 => scores i 2)
      let ftotal := finals.sum
      let favg := ftotal / 6
      (store ++
        [{ student_id := sid
           student_name := name
           grade_level := tgrade
           sect := tsect
           gender := gender
           race_ethnicity := race
           parental_education := parental
           lunch := lunch
           test_prep := tprep
           attendance_percent := att
           dpresent := days_present att total
           dabsent := days_absent att total
           total_days := total
           exam_scores := scores
           final_total_score := ftotal
           final_average_score := favg
           final_performance_level := performance_tier favg }], true)

/-! ## Column Normalizer (app.py lines 69-76, `standardize_column_name`)

Characters are handled through their code points.  The regex class
`[/\s]` is modelled as the slash (47) plus the ASCII whitespace class
(9-13, 32); `str.lower()` as ASCII lowercasing, which agrees with
Python on every character that can survive the later `[^a-z0-9_]`
deletion. -/

/-- A character matched by the regex class of slash and whitespace. -/
def isSep (c : Char) : Bool :=
  c.toNat = 47 || c.toNat = 32 || c.toNat = 9 || c.toNat = 10 ||
    c.toNat = 13 || c.toNat = 11 || c.toNat = 12

/-- ASCII lowercasing of one character. -/
def pyLower (c : Char) : Char :=
  if 65 ≤ c.toNat ∧ c.toNat ≤ 90 then Char.ofNat (c.toNat + 32) else c

/-- A character kept by the deletion of everything outside `[a-z0-9_]`. -/
def isCanon (c : Char) : Bool :=
  (97 ≤ c.toNat && c.toNat ≤ 122) || (48 ≤ c.toNat && c.toNat ≤ 57) || c.toNat = 95

/-- The underscore character test. -/
def isUnder (c : Char) : Bool := c.toNat = 95

/-- Replace every maximal run of characters satisfying `p` by the single
character `r`: the effect of `re.sub` with a one-class-plus pattern. -/
def squashRuns (p : Char → Bool) (r : Char) : List Char → List Char
  | [] => []
  | c :: cs =>
    if p c then r :: squashRuns p r (cs.dropWhile p)
    else c :: squashRuns p r cs
termination_by l => l.length
decreasing_by
  · have h : ∀ l : List Char, (l.dropWhile p).length ≤ l.length := by
      intro l
      induction l with
      | nil => exact Nat.le_refl _
      | cons a t ih =>
        rw [List.dropWhile_cons]
        split
        · exact Nat.le_succ_of_le ih
        · exact Nat.le_refl _
    exact Nat.lt_succ_of_le (h cs)
  · exact Nat.lt_succ_self _

/-- Remove the trailing run of underscores (the right half of
`str.strip` with underscore argument). -/
def stripTrail : List Char → List Char
  | [] => []
  | c :: cs =>
    match stripTrail cs with
    | [] => if isUnder c then [] else [c]
    | r => c :: r

/-- The whole `standardize_column_name` chain on a character list:
squash separator runs to one underscore, lowercase, delete non-canonical
characters, collapse underscore runs, trim underscores at both ends. -/
def normChars (l : List Char) : List Char :=
  stripTrail (List.dropWhile isUnder
    (squashRuns isUnder '_' (((squashRuns isSep '_' l).map pyLower).filter isCanon)))

/-- `standardize_column_name` on strings. -/
def standardize_column_name (s : String) : String := ⟨normChars s.data⟩

/-- No two adjacent underscores. -/
def noDouble : List Char → Bool
  | a :: b :: t => (!(isUnder a && isUnder b)) && noDouble (b :: t)
  | _ => true

/-- The last character, if any, is not an underscore. -/
def noTrailB : List Char → Bool
  | [] => true
  | [c] => !(isUnder c)
  | _ :: b :: t => noTrailB (b :: t)

/-- The first character, if any, is not an underscore. -/
def noLead (l : List Char) : Prop := ∀ c, l.head? = some c → isUnder c = false

/-- Every character is canonical. -/
def allCanon (l : List Char) : Prop := ∀ c ∈ l, isCanon c = true

/-! ## Shapes of stored identifiers (for the claims about
`get_next_student_id` and identifier assignment) -/

/-- An identifier of the shape `S` followed by exactly four decimal
digits. -/
def isSid4 (sid : String) : Bool :=
  match sid.data with
  | c :: ds => decide (c = 'S') && decide (ds.length = 4) && ds.all isDigitChar
  | [] => false

/-- The numeric value of the digit part of an identifier. -/
def sidVal (sid : String) : ℕ :=
  match sid.data with
  | _ :: ds => valDigits ds
  | [] => 0

/-- Hypothesis for distinctness of a batch of import identifiers: no
usable provided identifier coincides with the index-based form of any
row of the batch. -/
def providedOk (rows : List (Option String)) : Prop :=
  ∀ r ∈ rows, ∀ v, normProvided r = some v → ∀ k, k < rows.length → v ≠ fallbackId k

/-- At most one active assignment row per teacher, which holds in every
state the application reaches (seeding inserts one row per teacher and
`admin_assign_teacher` deactivates all of a teacher's rows before
inserting a new one). -/
def oneActivePerTeacher (maps : List TSMap) : Prop :=
  ∀ m ∈ maps, ∀ n ∈ maps, m.is_active = true → n.is_active = true →
    m.teacher_user_id = n.teacher_user_id → m = n

/-- A concrete student record used by closed counterexamples and
witnesses; only the two statistic-bearing fields vary. -/
def sampleStudent (avg att : ℚ) : Student :=
  { student_id := "S0001"
    student_name := "Sample"
    grade_level := 9
    sect := "A"
    gender := "female"
    race_ethnicity := "group A"
    parental_education := "high school"
    lunch := "standard"
    test_prep := "none"
    attendance_percent := att
    dpresent := days_present att 200
    dabsent := days_absent att 200
    total_days := 200
    exam_scores := fun _ _ => avg
    final_total_score := 6 * avg
    final_average_score := avg
    final_performance_level := performance_tier avg }

/-! ## C1: performance tier boundaries -/

/-- C1: the performance tier is Excellent exactly for averages at least
80, Good exactly on [65, 80), Average exactly on [50, 65), Needs
Improvement exactly below 50; in particular tier 80.0 is Excellent,
tier 79.99 is Good, tier 50.0 is Average, tier 49.99 is Needs
Improvement. -/
theorem c1_performance_tier_boundaries (avg : ℚ) :
    (performance_tier avg = "Excellent" ↔ 80 ≤ avg) ∧
    (performance_tier avg = "Good" ↔ 65 ≤ avg ∧ avg < 80) ∧
    (performance_tier avg = "Average" ↔ 50 ≤ avg ∧ avg < 65) ∧
    (performance_tier avg = "Needs Improvement" ↔ avg < 50) ∧
    performance_tier 80 = "Excellent" ∧ performance_tier (7999 / 100) = "Good" ∧
    performance_tier 50 = "Average" ∧ performance_tier (4999 / 100) = "Needs Improvement" := by
  refine ⟨?_, ?_, ?_, ?_, by norm_num [performance_tier], by norm_num [performance_tier],
    by norm_num [performance_tier], by norm_num [performance_tier]⟩ <;>
  · unfold performance_tier
    split_ifs <;> simp_all <;> intros <;> linarith

/-! ## C5: derivation of days present and absent -/

/-- C5 counterexample: at attendance percent 99.9 over 200 total days
the code stores 199 present days (Python `int` truncates), while the
round formula of the claim gives 200. -/
theorem c5_days_round_counterexample :
    days_present (999 / 10) 200 = 199 ∧
    round ((999 / 10 : ℚ) / 100 * ((200 : ℤ) : ℚ)) = 200 := by
  constructor
  · norm_num [days_present, pyInt]
  · rw [show (999 / 10 : ℚ) / 100 * ((200 : ℤ) : ℚ) = 999 / 5 by norm_num]
    rw [round_eq, Int.floor_eq_iff]
    norm_num

/-- C5 amended: for the nonnegative attendance percentages and day
counts in scope, days present is the floor (truncation) of
total_days * attendance_percent / 100 rather than its rounding, days
absent is the complement, and their sum is exactly the total. -/
theorem c5_days_derivation (att : ℚ) (total : ℤ)
    (hatt : 0 ≤ att) (htot : 0 ≤ total) :
    days_present att total = ⌊att / 100 * total⌋ ∧
    days_present att total + days_absent att total = total := by
  constructor
  · unfold days_present pyInt
    rw [if_pos]
    positivity
  · unfold days_absent
    omega

/-- C5 witness: the amended statement at attendance 99.9 percent and
200 total days. -/
theorem c5_days_derivation_witness :
    days_present (999 / 10) 200 = ⌊(999 / 10 : ℚ) / 100 * ((200 : ℤ) : ℚ)⌋ ∧
    days_present (999 / 10) 200 + days_absent (999 / 10) 200 = 200 :=
  c5_days_derivation (999 / 10) 200 (by norm_num) (by norm_num)

/-! ## C7: cohort pass rate and at-risk count -/

/-- C7 counterexample: on a two-student cohort with averages 60 and 40
the code computes a pass rate of 50 (a percentage), not the fraction
1/2 stated by the claim. -/
theorem c7_pass_rate_counterexample :
    pass_rate [sampleStudent 60 100, sampleStudent 40 100] ≠
      claim_pass_fraction [sampleStudent 60 100, sampleStudent 40 100] := by
  have h1 : pass_count [sampleStudent 60 100, sampleStudent 40 100] = 1 := by
    norm_num [pass_count, List.countP_cons, sampleStudent]
  have h2 : pass_rate [sampleStudent 60 100, sampleStudent 40 100] = 50 := by
    norm_num [pass_rate, h1]
  have h3 : claim_pass_fraction [sampleStudent 60 100, sampleStudent 40 100] = 1 / 2 := by
    norm_num [claim_pass_fraction, h1]
  rw [h2, h3]
  norm_num

/-- C7 amended: for every non-empty cohort the pass rate equals 100
times the fraction of records with final average at least 50 (a
percentage), and the at-risk count is the number of records with final
average below 50 or attendance percent below 75, inclusive or. -/
theorem c7_cohort_stats (students : List Student) (h : students ≠ []) :
    pass_rate students = 100 * claim_pass_fraction students ∧
    at_risk_count students = claim_at_risk students := by
  constructor
  · unfold pass_rate claim_pass_fraction
    rw [if_neg (by simpa using h)]
    ring
  · unfold at_risk_count claim_at_risk
    simp [Bool.decide_or]

/-- C7 witness: the amended statement on a concrete one-student cohort. -/
theorem c7_cohort_stats_witness :
    pass_rate [sampleStudent 60 100] =
      100 * claim_pass_fraction [sampleStudent 60 100] ∧
    at_risk_count [sampleStudent 60 100] = claim_at_risk [sampleStudent 60 100] :=
  c7_cohort_stats [sampleStudent 60 100] (by simp)

/-! ## C2: the access policy -/

/-- C2 counterexample: a teacher whose active assignment is grade 0,
section A is denied access to a student with exactly that grade and
section, because the Python truthiness guard treats grade 0 like a
missing assignment; so access is not equivalent to having an active
assignment equal to the student pair. -/
theorem c2_truthiness_counterexample :
    get_teacher_assignment [⟨1, 0, "A", true⟩] 1 = some (0, "A") ∧
    check_teacher_access "teacher" [⟨1, 0, "A", true⟩] 1 0 "A" = false := by
  constructor <;> rfl

/-- C2 amended: in states with at most one active assignment row per
teacher, an admin passes the check for any student, any role other than
admin and teacher fails it, and a teacher passes exactly when they have
an active assignment row equal to the student pair whose grade is
nonzero and whose section is nonempty (the Python truthiness guard
excludes grade 0 and the empty section). -/
theorem c2_access_policy (role : String) (maps : List TSMap) (uid : ℕ)
    (sgrade : ℤ) (ssection : String) (huniq : oneActivePerTeacher maps) :
    check_teacher_access "admin" maps uid sgrade ssection = true ∧
    (role ≠ "admin" → role ≠ "teacher" →
      check_teacher_access role maps uid sgrade ssection = false) ∧
    (check_teacher_access "teacher" maps uid sgrade ssection = true ↔
      ∃ m ∈ maps, m.is_active = true ∧ m.teacher_user_id = uid ∧
        m.grade_level = sgrade ∧ m.sect = ssection ∧
        m.grade_level ≠ 0 ∧ m.sect ≠ "") := by
  have hred : check_teacher_access "teacher" maps uid sgrade ssection =
      (match get_teacher_assignment maps uid with
       | none => false
       | some (g, s) =>
         if g = 0 ∨ s = "" then false
         else decide (g = sgrade) && decide (s = ssection)) := by
    unfold check_teacher_access
    rw [if_neg (by decide), if_neg (by decide)]
  refine ⟨rfl, ?_, ?_⟩
  · intro h1 h2
    unfold check_teacher_access
    rw [if_neg h1, if_pos h2]
  · rw [hred]
    cases hfind : maps.find? (fun m => decide (m.teacher_user_id = uid) && m.is_active) with
    | none =>
      have hget : get_teacher_assignment maps uid = none := by
        unfold get_teacher_assignment
        rw [hfind]
      rw [hget]
      simp only [Bool.false_eq_true, false_iff]
      rw [List.find?_eq_none] at hfind
      rintro ⟨m, hm, hact, huid, -⟩
      exact absurd (by simp [huid, hact]) (hfind m hm)
    | some m =>
      have hget : get_teacher_assignment maps uid = some (m.grade_level, m.sect) := by
        unfold get_teacher_assignment
        rw [hfind]
      rw [hget]
      have hmem : m ∈ maps := List.mem_of_find?_eq_some hfind
      have hpred := List.find?_some hfind
      simp only [Bool.and_eq_true, decide_eq_true_eq] at hpred
      constructor
      · intro h
        dsimp only at h
        split_ifs at h with hz
        simp only [Bool.and_eq_true, decide_eq_true_eq] at h
        push_neg at hz
        exact ⟨m, hmem, hpred.2, hpred.1, h.1, h.2, hz.1, hz.2⟩
      · rintro ⟨n, hn, hact, huid, hg, hs, hg0, hs0⟩
        have heq : m = n := huniq m hmem n hn hpred.2 hact (hpred.1.trans huid.symm)
        subst heq
        dsimp only
        rw [if_neg (by push_neg; exact ⟨hg ▸ hg0, hs ▸ hs0⟩)]
        simp [hg, hs]

/-- C2 witness: the amended statement on a one-row assignment table. -/
theorem c2_access_policy_witness :
    check_teacher_access "admin" [⟨1, 9, "A", true⟩] 1 9 "A" = true ∧
    (("student" : String) ≠ "admin" → ("student" : String) ≠ "teacher" →
      check_teacher_access "student" [⟨1, 9, "A", true⟩] 1 9 "A" = false) ∧
    (check_teacher_access "teacher" [⟨1, 9, "A", true⟩] 1 9 "A" = true ↔
      ∃ m ∈ [(⟨1, 9, "A", true⟩ : TSMap)], m.is_active = true ∧
        m.teacher_user_id = 1 ∧ m.grade_level = 9 ∧ m.sect = "A" ∧
        m.grade_level ≠ 0 ∧ m.sect ≠ "") :=
  c2_access_policy "student" [⟨1, 9, "A", true⟩] 1 9 "A"
    (by
      intro m hm n hn _ _ _
      rw [List.mem_singleton] at hm hn
      rw [hm, hn])

/-! ## C3: teacher assignment uniqueness and atomicity -/

/-- C3 counterexample: with a single assignment table row, held by
teacher 1 and active on grade 9 section A, reassigning teacher 1 to the
very pair they already hold is rejected even though no other active
mapping claims the pair (the only row belongs to the acting teacher). -/
theorem c3_own_mapping_counterexample :
    (admin_assign_teacher [⟨1, 9, "A", true⟩] 1 9 "A").2 = false ∧
    (admin_assign_teacher [⟨1, 9, "A", true⟩] 1 9 "A").1 = [⟨1, 9, "A", true⟩] ∧
    ∀ m ∈ [(⟨1, 9, "A", true⟩ : TSMap)], m.teacher_user_id = 1 := by
  refine ⟨rfl, rfl, by decide⟩

/-- Helper: `countP` is monotone under pointwise implication. -/
theorem countP_le_of_imp {α : Type} (p q : α → Bool) (l : List α)
    (h : ∀ a ∈ l, p a = true → q a = true) : l.countP p ≤ l.countP q := by
  induction l with
  | nil => exact Nat.le_refl _
  | cons a t ih =>
    rw [List.countP_cons, List.countP_cons]
    have ht : t.countP p ≤ t.countP q := ih (fun b hb => h b (List.mem_cons_of_mem a hb))
    by_cases hp : p a = true
    · rw [if_pos hp, if_pos (h a (List.mem_cons_self a t) hp)]
      omega
    · rw [if_neg hp]
      omega

/-- C3 amended: the assignment transaction is rejected exactly when some
row of the table, active or not and whether or not it belongs to the
acting teacher, already claims the pair (the explicit check covers
active rows, the UNIQUE(grade_level, section) table constraint the
rest); a rejected call leaves the table unchanged; a successful call
atomically deactivates every row of the acting teacher and appends the
new active row; and the at-most-one-active-mapping-per-pair invariant is
preserved. -/
theorem c3_assign_teacher (maps : List TSMap) (uid : ℕ) (g : ℤ) (s : String) :
    ((admin_assign_teacher maps uid g s).2 = false ↔
      ∃ m ∈ maps, m.grade_level = g ∧ m.sect = s) ∧
    ((admin_assign_teacher maps uid g s).2 = false →
      (admin_assign_teacher maps uid g s).1 = maps) ∧
    ((admin_assign_teacher maps uid g s).2 = true →
      (admin_assign_teacher maps uid g s).1 =
        deactivateFor uid maps ++ [⟨uid, g, s, true⟩]) ∧
    (activePairUnique maps → activePairUnique (admin_assign_teacher maps uid g s).1) := by
  unfold admin_assign_teacher
  by_cases h1 : maps.any (fun m => decide (m.grade_level = g) && decide (m.sect = s) && m.is_active) = true
  · rw [if_pos h1]
    rw [List.any_eq_true] at h1
    obtain ⟨m, hm, hp⟩ := h1
    simp only [Bool.and_eq_true, decide_eq_true_eq] at hp
    exact ⟨iff_of_true rfl ⟨m, hm, hp.1.1, hp.1.2⟩, fun _ => rfl,
      fun hc => absurd hc Bool.false_ne_true, fun hinv => hinv⟩
  · rw [if_neg h1]
    by_cases h2 : maps.any (fun m => decide (m.grade_level = g) && decide (m.sect = s)) = true
    · rw [if_pos h2]
      rw [List.any_eq_true] at h2
      obtain ⟨m, hm, hp⟩ := h2
      simp only [Bool.and_eq_true, decide_eq_true_eq] at hp
      exact ⟨iff_of_true rfl ⟨m, hm, hp.1, hp.2⟩, fun _ => rfl,
        fun hc => absurd hc Bool.false_ne_true, fun hinv => hinv⟩
    · rw [if_neg h2]
      have hnone : ∀ m ∈ maps, ¬(m.grade_level = g ∧ m.sect = s) := by
        intro m hm hc
        exact h2 (List.any_eq_true.mpr ⟨m, hm, by simp [hc.1, hc.2]⟩)
      refine ⟨iff_of_false ?_ ?_, fun hc => by simp at hc,
        fun _ => rfl, ?_⟩
      · simp
      · rintro ⟨m, hm, hc⟩
        exact hnone m hm hc
      · intro hinv g' s'
        show (deactivateFor uid maps ++ [(⟨uid, g, s, true⟩ : TSMap)]).countP _ ≤ 1
        rw [List.countP_append]
        by_cases hpair : g = g' ∧ s = s'
        · have h0 : (deactivateFor uid maps).countP
              (fun m => decide (m.grade_level = g') && decide (m.sect = s') && m.is_active) = 0 := by
            rw [List.countP_eq_zero]
            intro x hx
            unfold deactivateFor at hx
            rw [List.mem_map] at hx
            obtain ⟨m, hm, rfl⟩ := hx
            by_cases huid : m.teacher_user_id = uid
            · simp [huid]
            · rw [if_neg huid]
              simp only [Bool.and_eq_true, decide_eq_true_eq]
              rintro ⟨⟨hg, hs⟩, -⟩
              exact hnone m hm ⟨hg.trans hpair.1.symm, hs.trans hpair.2.symm⟩
          have h1len := List.countP_le_length
            (fun m : TSMap => decide (m.grade_level = g') && decide (m.sect = s') && m.is_active)
            (l := [⟨uid, g, s, true⟩])
          simp only [List.length_singleton] at h1len
          omega
        · have hnew : ([(⟨uid, g, s, true⟩ : TSMap)]).countP
              (fun m => decide (m.grade_level = g') && decide (m.sect = s') && m.is_active) = 0 := by
            rw [List.countP_eq_zero]
            intro x hx
            rw [List.mem_singleton] at hx
            subst hx
            simp only [Bool.and_eq_true, decide_eq_true_eq]
            rintro ⟨⟨hg, hs⟩, -⟩
            exact hpair ⟨hg, hs⟩
          have hle : (deactivateFor uid maps).countP
              (fun m => decide (m.grade_level = g') && decide (m.sect = s') && m.is_active) ≤
              maps.countP
              (fun m => decide (m.grade_level = g') && decide (m.sect = s') && m.is_active) := by
            unfold deactivateFor
            rw [List.countP_map]
            refine countP_le_of_imp _ _ maps ?_
            intro m hm h
            by_cases huid : m.teacher_user_id = uid
            · exfalso
              revert h
              simp [Function.comp, huid]
            · revert h
              simp [Function.comp, huid]
          have := hinv g' s'
          omega

/-- C3 witness: on the empty table the assignment succeeds, the new
table is the single new active row, and the invariant holds. -/
theorem c3_assign_teacher_witness :
    (admin_assign_teacher [] 1 9 "A").2 = true ∧
    (admin_assign_teacher [] 1 9 "A").1 =
      deactivateFor 1 [] ++ [⟨1, 9, "A", true⟩] ∧
    activePairUnique (admin_assign_teacher [] 1 9 "A").1 := by
  have h := c3_assign_teacher [] 1 9 "A"
  refine ⟨by rfl, h.2.2.1 (by rfl), h.2.2.2 ?_⟩
  intro g s
  simp [activePairUnique]

/-! ## C8: idempotence of the column normalizer -/

theorem squashRuns_nil (p : Char → Bool) (r : Char) : squashRuns p r [] = [] := by
  rw [squashRuns]

theorem squashRuns_cons_pos (p : Char → Bool) (r c : Char) (cs : List Char)
    (h : p c = true) :
    squashRuns p r (c :: cs) = r :: squashRuns p r (cs.dropWhile p) := by
  rw [squashRuns, if_pos h]

theorem squashRuns_cons_neg (p : Char → Bool) (r c : Char) (cs : List Char)
    (h : ¬ p c = true) :
    squashRuns p r (c :: cs) = c :: squashRuns p r cs := by
  rw [squashRuns, if_neg h]

/-- Every character of the squashed list is a character of the input or
the replacement character. -/
theorem mem_squashRuns (p : Char → Bool) (r : Char) :
    ∀ (l : List Char) (c : Char), c ∈ squashRuns p r l → c ∈ l ∨ c = r := by
  intro l
  induction l using squashRuns.induct p r with
  | case1 =>
    intro c hc
    simp [squashRuns] at hc
  | case2 c cs h ih =>
    intro d hd
    rw [squashRuns_cons_pos p r c cs h] at hd
    rcases List.mem_cons.mp hd with h1 | h1
    · exact Or.inr h1
    · rcases ih d h1 with h2 | h2
      · exact Or.inl (List.mem_cons_of_mem c ((List.dropWhile_suffix p).subset h2))
      · exact Or.inr h2
  | case3 c cs h ih =>
    intro d hd
    rw [squashRuns_cons_neg p r c cs h] at hd
    rcases List.mem_cons.mp hd with h1 | h1
    · exact Or.inl (h1 ▸ List.mem_cons_self c cs)
    · rcases ih d h1 with h2 | h2
      · exact Or.inl (List.mem_cons_of_mem c h2)
      · exact Or.inr h2

/-- Squashing is the identity on lists with no character of the class. -/
theorem squashRuns_eq_self (p : Char → Bool) (r : Char) (l : List Char)
    (h : ∀ c ∈ l, p c = false) : squashRuns p r l = l := by
  induction l with
  | nil => exact squashRuns_nil p r
  | cons c cs ih =>
    rw [squashRuns_cons_neg p r c cs (by simp [h c (List.mem_cons_self c cs)])]
    rw [ih (fun d hd => h d (List.mem_cons_of_mem c hd))]

/-- The head of a nonempty `dropWhile` result fails the predicate. -/
theorem dropWhile_head_false (p : Char → Bool) :
    ∀ (l : List Char) (d : Char) (t : List Char),
      l.dropWhile p = d :: t → p d = false := by
  intro l
  induction l with
  | nil => intro d t h; simp [List.dropWhile] at h
  | cons c cs ih =>
    intro d t h
    rw [List.dropWhile_cons] at h
    by_cases hc : p c = true
    · rw [if_pos hc] at h
      exact ih d t h
    · rw [if_neg hc] at h
      cases h
      exact Bool.eq_false_iff.mpr hc

theorem noDouble_tail (c : Char) (l : List Char) (h : noDouble (c :: l) = true) :
    noDouble l = true := by
  cases l with
  | nil => rfl
  | cons d t =>
    rw [noDouble, Bool.and_eq_true] at h
    exact h.2

/-- Consing a non-underscore character preserves `noDouble`. -/
theorem noDouble_cons_notUnder (c : Char) (l : List Char)
    (hc : isUnder c = false) (h : noDouble l = true) :
    noDouble (c :: l) = true := by
  cases l with
  | nil => rfl
  | cons d t =>
    rw [noDouble, Bool.and_eq_true]
    exact ⟨by simp [hc], h⟩

/-- Consing onto a list whose head is not an underscore preserves
`noDouble`. -/
theorem noDouble_cons_headNot (c d : Char) (t : List Char)
    (hd : isUnder d = false) (h : noDouble (d :: t) = true) :
    noDouble (c :: d :: t) = true := by
  rw [noDouble, Bool.and_eq_true]
  exact ⟨by simp [hd], h⟩

/-- Collapsing underscore runs yields a list with no two adjacent
underscores. -/
theorem noDouble_squash :
    ∀ l : List Char, noDouble (squashRuns isUnder '_' l) = true := by
  intro l
  induction l using squashRuns.induct isUnder '_' with
  | case1 => rw [squashRuns_nil]; rfl
  | case2 c cs h ih =>
    rw [squashRuns_cons_pos isUnder '_' c cs h]
    cases hdw : cs.dropWhile isUnder with
    | nil =>
      rw [squashRuns_nil]
      rfl
    | cons d t =>
      have hd : isUnder d = false := dropWhile_head_false isUnder cs d t hdw
      rw [hdw] at ih
      rw [squashRuns_cons_neg isUnder '_' d t (by simp [hd])] at ih ⊢
      exact noDouble_cons_headNot '_' d (squashRuns isUnder '_' t) hd ih
  | case3 c cs h ih =>
    rw [squashRuns_cons_neg isUnder '_' c cs h]
    exact noDouble_cons_notUnder c (squashRuns isUnder '_' cs) (Bool.eq_false_iff.mpr h) ih

/-- An underscore-class character is the underscore. -/
theorem isUnder_eq (c : Char) (h : isUnder c = true) : c = '_' := by
  unfold isUnder at h
  rw [decide_eq_true_eq] at h
  have hval : c.val = ('_' : Char).val := by
    apply UInt32.ext
    exact h
  exact Char.ext hval

/-- Collapsing underscore runs is the identity on lists with no two
adjacent underscores. -/
theorem squash_eq_self_of_noDouble :
    ∀ l : List Char, noDouble l = true → squashRuns isUnder '_' l = l := by
  intro l
  induction l with
  | nil => intro _; exact squashRuns_nil isUnder '_'
  | cons c cs ih =>
    intro h
    by_cases hc : isUnder c = true
    · rw [squashRuns_cons_pos isUnder '_' c cs hc]
      have hcu : c = '_' := isUnder_eq c hc
      have hdw : cs.dropWhile isUnder = cs := by
        cases cs with
        | nil => rfl
        | cons d t =>
          rw [noDouble, Bool.and_eq_true, hc] at h
          have hd : isUnder d = false := by
            have h1 := h.1
            simp at h1
            exact h1
          rw [List.dropWhile_cons, if_neg (by simp [hd])]
      rw [hdw, ih (noDouble_tail c cs h), hcu]
    · rw [squashRuns_cons_neg isUnder '_' c cs hc]
      rw [ih (noDouble_tail c cs h)]

/-- The trailing strip returns the empty list or keeps the head. -/
theorem stripTrail_shape (c : Char) (cs : List Char) :
    stripTrail (c :: cs) = [] ∨ ∃ t, stripTrail (c :: cs) = c :: t := by
  rw [stripTrail]
  cases stripTrail cs with
  | nil =>
    by_cases hc : isUnder c = true
    · exact Or.inl (by rw [if_pos hc])
    · exact Or.inr ⟨[], by rw [if_neg hc]⟩
  | cons d t => exact Or.inr ⟨d :: t, rfl⟩

/-- The trailing strip ends in a non-underscore character, if anything. -/
theorem noTrailB_stripTrail : ∀ l : List Char, noTrailB (stripTrail l) = true := by
  intro l
  induction l with
  | nil => rfl
  | cons c cs ih =>
    rw [stripTrail]
    cases hs : stripTrail cs with
    | nil =>
      by_cases hc : isUnder c = true
      · rw [if_pos hc]; rfl
      · rw [if_neg hc]
        rw [noTrailB]
        simp [Bool.eq_false_iff.mpr hc]
    | cons d t =>
      rw [hs] at ih
      rw [noTrailB]
      exact ih

/-- The trailing strip is the identity when the last character is not an
underscore. -/
theorem stripTrail_eq_self : ∀ l : List Char, noTrailB l = true → stripTrail l = l := by
  intro l
  induction l with
  | nil => intro _; rfl
  | cons c cs ih =>
    intro h
    cases cs with
    | nil =>
      rw [noTrailB] at h
      rw [stripTrail, stripTrail, if_neg (by simp at h; simp [h])]
    | cons d t =>
      rw [noTrailB] at h
      have hs : stripTrail (d :: t) = d :: t := ih h
      rw [stripTrail, hs]

/-- Characters of the trailing strip are characters of the input. -/
theorem mem_stripTrail : ∀ (l : List Char) (c : Char), c ∈ stripTrail l → c ∈ l := by
  intro l
  induction l with
  | nil => intro c hc; exact absurd hc (by rw [stripTrail]; simp)
  | cons c cs ih =>
    intro d hd
    rw [stripTrail] at hd
    cases hs : stripTrail cs with
    | nil =>
      rw [hs] at hd
      by_cases hc : isUnder c = true
      · rw [if_pos hc] at hd
        exact absurd hd (List.not_mem_nil d)
      · rw [if_neg hc] at hd
        rw [List.mem_singleton] at hd
        exact hd ▸ List.mem_cons_self c cs
    | cons e t =>
      rw [hs] at hd
      rcases List.mem_cons.mp hd with h1 | h1
      · exact h1 ▸ List.mem_cons_self c cs
      · exact List.mem_cons_of_mem c (ih d (hs ▸ h1))

/-- The trailing strip preserves absence of adjacent underscores. -/
theorem noDouble_stripTrail : ∀ l : List Char, noDouble l = true →
    noDouble (stripTrail l) = true := by
  intro l
  induction l with
  | nil => intro _; rfl
  | cons c cs ih =>
    intro h
    rw [stripTrail]
    cases hs : stripTrail cs with
    | nil =>
      by_cases hc : isUnder c = true
      · rw [if_pos hc]; rfl
      · rw [if_neg hc]; rfl
    | cons d t =>
      have ihs : noDouble (d :: t) = true := hs ▸ ih (noDouble_tail c cs h)
      cases cs with
      | nil => exact absurd hs (by rw [stripTrail]; simp)
      | cons e u =>
        rcases stripTrail_shape e u with h0 | ⟨t', ht'⟩
        · rw [h0] at hs
          exact absurd hs (by simp)
        · rw [ht'] at hs
          cases hs
          rw [noDouble, Bool.and_eq_true] at h ⊢
          exact ⟨h.1, ihs⟩

/-- Dropping a prefix preserves absence of adjacent underscores. -/
theorem noDouble_dropWhile (p : Char → Bool) :
    ∀ l : List Char, noDouble l = true → noDouble (l.dropWhile p) = true := by
  intro l
  induction l with
  | nil => intro _; rfl
  | cons c cs ih =>
    intro h
    rw [List.dropWhile_cons]
    by_cases hc : p c = true
    · rw [if_pos hc]
      exact ih (noDouble_tail c cs h)
    · rw [if_neg hc]
      exact h

/-- Canonical characters are not separators. -/
theorem isCanon_not_sep (c : Char) (h : isCanon c = true) : isSep c = false := by
  unfold isCanon at h
  unfold isSep
  simp only [Bool.or_eq_true, Bool.and_eq_true, decide_eq_true_eq] at h
  simp only [Bool.or_eq_false_iff, decide_eq_false_iff_not]
  omega

/-- Canonical characters are unchanged by ASCII lowercasing. -/
theorem pyLower_canon (c : Char) (h : isCanon c = true) : pyLower c = c := by
  unfold isCanon at h
  unfold pyLower
  simp only [Bool.or_eq_true, Bool.and_eq_true, decide_eq_true_eq] at h
  rw [if_neg (by omega)]

/-- Canonical lists pass the separator squash unchanged. -/
theorem squashSeps_eq_self (l : List Char) (h : allCanon l) :
    squashRuns isSep '_' l = l :=
  squashRuns_eq_self isSep '_' l (fun c hc => isCanon_not_sep c (h c hc))

/-- Canonical lists pass lowercasing unchanged. -/
theorem map_pyLower_eq_self (l : List Char) (h : allCanon l) :
    l.map pyLower = l := by
  induction l with
  | nil => rfl
  | cons c cs ih =>
    rw [List.map_cons, pyLower_canon c (h c (List.mem_cons_self c cs)),
      ih (fun d hd => h d (List.mem_cons_of_mem c hd))]

/-- Canonical lists pass the canonical filter unchanged. -/
theorem filter_canon_eq_self (l : List Char) (h : allCanon l) :
    l.filter isCanon = l :=
  List.filter_eq_self.mpr h

/-- The underscore is canonical. -/
theorem isCanon_under : isCanon '_' = true := by decide

/-- The output of the whole normalization chain is canonical. -/
theorem allCanon_normChars (l : List Char) : allCanon (normChars l) := by
  intro c hc
  unfold normChars at hc
  have h1 := mem_stripTrail _ c hc
  have h2 := (List.dropWhile_suffix isUnder).subset h1
  rcases mem_squashRuns isUnder '_' _ c h2 with h3 | h3
  · exact List.of_mem_filter h3
  · rw [h3]
    exact isCanon_under

/-- The output of the whole normalization chain has no two adjacent
underscores. -/
theorem noDouble_normChars (l : List Char) : noDouble (normChars l) = true := by
  unfold normChars
  exact noDouble_stripTrail _ (noDouble_dropWhile isUnder _ (noDouble_squash _))

/-- The output of the whole normalization chain does not start with an
underscore. -/
theorem noLead_normChars (l : List Char) : noLead (normChars l) := by
  intro c hc
  unfold normChars at hc
  cases hdw : List.dropWhile isUnder
      (squashRuns isUnder '_' (((squashRuns isSep '_' l).map pyLower).filter isCanon)) with
  | nil =>
    rw [hdw] at hc
    rw [stripTrail] at hc
    simp at hc
  | cons d t =>
    rw [hdw] at hc
    rcases stripTrail_shape d t with h0 | ⟨t', ht'⟩
    · rw [h0] at hc
      simp at hc
    · rw [ht'] at hc
      simp only [List.head?_cons, Option.some.injEq] at hc
      rw [← hc]
      exact dropWhile_head_false isUnder _ d t hdw

/-- The output of the whole normalization chain does not end with an
underscore. -/
theorem noTrail_normChars (l : List Char) : noTrailB (normChars l) = true := by
  unfold normChars
  exact noTrailB_stripTrail _

/-- Idempotence of the normalization chain on character lists. -/
theorem normChars_idem (l : List Char) : normChars (normChars l) = normChars l := by
  have hcanon := allCanon_normChars l
  have hdouble := noDouble_normChars l
  have hlead := noLead_normChars l
  have htrail := noTrail_normChars l
  conv_lhs => rw [normChars]
  rw [squashSeps_eq_self _ hcanon, map_pyLower_eq_self _ hcanon,
    filter_canon_eq_self _ hcanon, squash_eq_self_of_noDouble _ hdouble]
  have hdw : List.dropWhile isUnder (normChars l) = normChars l := by
    cases hn : normChars l with
    | nil => rfl
    | cons c t =>
      rw [List.dropWhile_cons, if_neg]
      rw [hn] at hlead
      simp [hlead c rfl]
  rw [hdw]
  exact stripTrail_eq_self _ htrail

/-- C8: the column normalizer (squash separator runs to an underscore,
lowercase, delete characters outside the canonical class, collapse
underscore runs, trim underscores at the ends, a total function raising
no error) is idempotent, and its output consists of canonical
characters only. -/
theorem c8_standardize_idempotent (s : String) :
    standardize_column_name (standardize_column_name s) = standardize_column_name s ∧
    allCanon (standardize_column_name s).data := by
  constructor
  · unfold standardize_column_name
    exact congrArg String.mk (normChars_idem s.data)
  · exact allCanon_normChars s.data

/-! ## Arithmetic of the zero-padded decimal identifiers -/

theorem charVal_digitChar (d : ℕ) (h : d < 10) : charVal (digitChar d) = d := by
  interval_cases d <;> rfl

/-- Evaluating the digit fold from an arbitrary accumulator. -/
theorem valDigits_from (l : List Char) :
    ∀ a : ℕ, l.foldl (fun a c => a * 10 + charVal c) a =
      a * 10 ^ l.length + valDigits l := by
  induction l with
  | nil => intro a; simp [valDigits]
  | cons c t ih =>
    intro a
    rw [List.foldl_cons, ih (a * 10 + charVal c)]
    have hv : valDigits (c :: t) = charVal c * 10 ^ t.length + valDigits t := by
      unfold valDigits
      rw [List.foldl_cons, ih (0 * 10 + charVal c)]
      norm_num
      rfl
    rw [hv, List.length_cons]
    ring

theorem valDigits_cons (c : Char) (t : List Char) :
    valDigits (c :: t) = charVal c * 10 ^ t.length + valDigits t := by
  unfold valDigits
  rw [List.foldl_cons, valDigits_from t (0 * 10 + charVal c)]
  norm_num
  rfl

/-- Leading zero characters do not change the value. -/
theorem valDigits_replicate_zero (k : ℕ) (l : List Char) :
    valDigits (List.replicate k '0' ++ l) = valDigits l := by
  induction k with
  | zero => rfl
  | succ n ih =>
    rw [List.replicate_succ, List.cons_append]
    unfold valDigits at ih ⊢
    rw [List.foldl_cons]
    have : (0 : ℕ) * 10 + charVal '0' = 0 := rfl
    rw [this]
    exact ih

theorem valDigits_digitsBEAux :
    ∀ (fuel n : ℕ), n ≤ fuel → valDigits (digitsBEAux fuel n) = n := by
  intro fuel
  induction fuel with
  | zero =>
    intro n hn
    interval_cases n
    rfl
  | succ f ih =>
    intro n hn
    rw [digitsBEAux]
    by_cases h0 : n = 0
    · rw [if_pos h0, h0]; rfl
    · rw [if_neg h0]
      unfold valDigits
      rw [List.foldl_append]
      have hdiv : n / 10 ≤ f := by omega
      have := ih (n / 10) hdiv
      unfold valDigits at this
      rw [this, List.foldl_cons, List.foldl_nil,
        charVal_digitChar (n % 10) (Nat.mod_lt n (by norm_num))]
      omega

/-- The zero-padded four-digit form evaluates back to its number. -/
theorem valDigits_pad4 (n : ℕ) : valDigits (pad4 n) = n := by
  unfold pad4
  rw [valDigits_replicate_zero]
  exact valDigits_digitsBEAux n n (Nat.le_refl n)

/-- The index-based identifiers are pairwise distinct. -/
theorem fallbackId_inj {j k : ℕ} (h : fallbackId j = fallbackId k) : j = k := by
  unfold fallbackId at h
  have hd : 'S' :: pad4 (j + 1) = 'S' :: pad4 (k + 1) := congrArg String.data h
  have hp : pad4 (j + 1) = pad4 (k + 1) := by
    injection hd
  have hv := congrArg valDigits hp
  rw [valDigits_pad4, valDigits_pad4] at hv
  omega

/-! ## The lexicographic order used by `ORDER BY student_id DESC` -/

theorem char_lt_toNat {a b : Char} : a < b ↔ a.toNat < b.toNat := Iff.rfl

theorem char_ne_toNat {a b : Char} (h : a ≠ b) : a.toNat ≠ b.toNat :=
  fun hc => h (Char.ext (UInt32.ext hc))

theorem lexLe_refl : ∀ l : List Char, lexLe l l = true := by
  intro l
  induction l with
  | nil => rfl
  | cons c cs ih => rw [lexLe, if_pos rfl]; exact ih

theorem lexLe_total : ∀ l m : List Char, lexLe l m = true ∨ lexLe m l = true := by
  intro l
  induction l with
  | nil => intro m; exact Or.inl rfl
  | cons a as ih =>
    intro m
    cases m with
    | nil => exact Or.inr rfl
    | cons b bs =>
      by_cases hab : a = b
      · subst hab
        rw [lexLe, if_pos rfl, lexLe, if_pos rfl]
        exact ih bs
      · rcases Nat.lt_trichotomy a.toNat b.toNat with h1 | h1 | h1
        · left
          rw [lexLe, if_neg hab]
          exact decide_eq_true (char_lt_toNat.mpr h1)
        · exact absurd (Char.ext (UInt32.ext h1)) hab
        · right
          rw [lexLe, if_neg (fun hc => hab hc.symm)]
          exact decide_eq_true (char_lt_toNat.mpr h1)

theorem lexLe_trans : ∀ l m n : List Char,
    lexLe l m = true → lexLe m n = true → lexLe l n = true := by
  intro l
  induction l with
  | nil => intro m n _ _; rfl
  | cons a as ih =>
    intro m n hlm hmn
    cases m with
    | nil => exact absurd hlm (by rw [lexLe]; simp)
    | cons b bs =>
      cases n with
      | nil => exact absurd hmn (by rw [lexLe]; simp)
      | cons c cs =>
        rw [lexLe] at hlm hmn ⊢
        by_cases hab : a = b
        · subst hab
          rw [if_pos rfl] at hlm
          by_cases hac : a = c
          · subst hac
            rw [if_pos rfl] at hmn ⊢
            exact ih bs cs hlm hmn
          · rw [if_neg hac] at hmn ⊢
            exact hmn
        · rw [if_neg hab] at hlm
          have hlt_ab : a.toNat < b.toNat := char_lt_toNat.mp (of_decide_eq_true hlm)
          by_cases hbc : b = c
          · subst hbc
            rw [if_neg hab]
            exact decide_eq_true (char_lt_toNat.mpr hlt_ab)
          · rw [if_neg hbc] at hmn
            have hlt_bc : b.toNat < c.toNat := char_lt_toNat.mp (of_decide_eq_true hmn)
            have hac : a ≠ c := fun hc => by
              rw [hc] at hlt_ab
              omega
            rw [if_neg hac]
            exact decide_eq_true (char_lt_toNat.mpr (Nat.lt_trans hlt_ab hlt_bc))

/-- The fold of `maxLex` returns the accumulator or a list element, and
dominates the accumulator and every element. -/
theorem foldlMax_spec (xs : List String) :
    ∀ acc : String,
      (xs.foldl (fun acc y => if lexLe acc.data y.data then y else acc) acc = acc ∨
        xs.foldl (fun acc y => if lexLe acc.data y.data then y else acc) acc ∈ xs) ∧
      lexLe acc.data
        (xs.foldl (fun acc y => if lexLe acc.data y.data then y else acc) acc).data = true ∧
      ∀ y ∈ xs, lexLe y.data
        (xs.foldl (fun acc y => if lexLe acc.data y.data then y else acc) acc).data = true := by
  induction xs with
  | nil =>
    intro acc
    exact ⟨Or.inl rfl, lexLe_refl acc.data, by simp⟩
  | cons x xs ih =>
    intro acc
    rw [List.foldl_cons]
    by_cases hax : lexLe acc.data x.data = true
    · rw [if_pos hax]
      obtain ⟨hmem, hacc, hall⟩ := ih x
      refine ⟨?_, lexLe_trans acc.data x.data _ hax hacc, ?_⟩
      · rcases hmem with h | h
        · exact Or.inr (by rw [h]; exact List.mem_cons_self x xs)
        · exact Or.inr (List.mem_cons_of_mem x h)
      · intro y hy
        rcases List.mem_cons.mp hy with h | h
        · exact h ▸ hacc
        · exact hall y h
    · rw [if_neg hax]
      obtain ⟨hmem, hacc, hall⟩ := ih acc
      refine ⟨?_, hacc, ?_⟩
      · rcases hmem with h | h
        · exact Or.inl h
        · exact Or.inr (List.mem_cons_of_mem x h)
      · intro y hy
        rcases List.mem_cons.mp hy with h | h
        · subst h
          rcases lexLe_total acc.data y.data with h1 | h1
          · exact absurd h1 hax
          · exact lexLe_trans y.data acc.data _ h1 hacc
        · exact hall y h

/-- The `ORDER BY ... DESC LIMIT 1` row of a nonempty identifier list:
it belongs to the list and lexicographically dominates every element. -/
theorem maxLex_spec (x : String) (xs : List String) :
    ∃ m, maxLex (x :: xs) = some m ∧ m ∈ x :: xs ∧
      ∀ y ∈ x :: xs, lexLe y.data m.data = true := by
  obtain ⟨hmem, hacc, hall⟩ := foldlMax_spec xs x
  refine ⟨_, rfl, ?_, ?_⟩
  · rcases hmem with h | h
    · rw [h]
      exact List.mem_cons_self x xs
    · exact List.mem_cons_of_mem x h
  · intro y hy
    rcases List.mem_cons.mp hy with h | h
    · exact h ▸ hacc
    · exact hall y h

/-! ## Digit lists under the lexicographic order -/

theorem charVal_le_nine {c : Char} (h : isDigitChar c = true) : charVal c ≤ 9 := by
  unfold isDigitChar at h
  unfold charVal
  simp only [Bool.and_eq_true, decide_eq_true_eq] at h
  omega

theorem valDigits_lt (l : List Char) (h : l.all isDigitChar = true) :
    valDigits l < 10 ^ l.length := by
  induction l with
  | nil => norm_num [valDigits]
  | cons c t ih =>
    rw [List.all_cons, Bool.and_eq_true] at h
    rw [valDigits_cons, List.length_cons]
    have h9 : charVal c ≤ 9 := charVal_le_nine h.1
    have ht : valDigits t < 10 ^ t.length := ih h.2
    calc charVal c * 10 ^ t.length + valDigits t
        < (charVal c + 1) * 10 ^ t.length := by
          rw [Nat.add_mul, Nat.one_mul]
          omega
      _ ≤ 10 * 10 ^ t.length := by
          apply Nat.mul_le_mul_right
          omega
      _ = 10 ^ (t.length + 1) := by
          rw [Nat.pow_succ]
          ring

/-- On equal-length digit strings, the byte order is the numeric order. -/
theorem lexLe_val_le : ∀ ds es : List Char, ds.length = es.length →
    ds.all isDigitChar = true → es.all isDigitChar = true →
    lexLe ds es = true → valDigits ds ≤ valDigits es := by
  intro ds
  induction ds with
  | nil => intro es _ _ _ _; simp [valDigits]
  | cons a as ih =>
    intro es hlen hd he hle
    cases es with
    | nil => exact absurd hlen (by simp)
    | cons b bs =>
      rw [List.all_cons, Bool.and_eq_true] at hd he
      rw [List.length_cons, List.length_cons, Nat.succ_inj] at hlen
      rw [lexLe] at hle
      rw [valDigits_cons, valDigits_cons, hlen]
      by_cases hab : a = b
      · subst hab
        rw [if_pos rfl] at hle
        have := ih bs hlen hd.2 he.2 hle
        omega
      · rw [if_neg hab] at hle
        have hlt : a.toNat < b.toNat := char_lt_toNat.mp (of_decide_eq_true hle)
        have hv : charVal a < charVal b := by
          unfold isDigitChar at hd he
          have h1 := hd.1
          have h2 := he.1
          simp only [Bool.and_eq_true, decide_eq_true_eq] at h1 h2
          unfold charVal
          omega
        have has : valDigits as < 10 ^ bs.length := hlen ▸ valDigits_lt as hd.2
        refine le_of_lt ?_
        calc charVal a * 10 ^ bs.length + valDigits as
            < (charVal a + 1) * 10 ^ bs.length := by
              rw [Nat.add_mul, Nat.one_mul]
              omega
          _ ≤ charVal b * 10 ^ bs.length := Nat.mul_le_mul_right _ (by omega)
          _ ≤ charVal b * 10 ^ bs.length + valDigits bs := Nat.le_add_right _ _

/-! ## Specification of `get_next_student_id` -/

theorem parseNat?_digits (l : List Char) (hne : l ≠ [])
    (hd : l.all isDigitChar = true) : parseNat? l = some (valDigits l) := by
  unfold parseNat?
  rw [if_pos ⟨hne, hd⟩]

/-- On a nonempty store whose identifiers are all `S` plus four digits,
`get_next_student_id` returns `S` plus the zero-padded successor of the
numerically (equivalently, lexicographically) greatest identifier. -/
theorem getNext_spec (ids : List String) (hne : ids ≠ [])
    (h4 : ∀ x ∈ ids, isSid4 x = true) :
    ∃ m ∈ ids, (∀ x ∈ ids, sidVal x ≤ sidVal m) ∧
      get_next_student_id ids = ⟨'S' :: pad4 (sidVal m + 1)⟩ := by
  cases ids with
  | nil => exact absurd rfl hne
  | cons x xs =>
    obtain ⟨m, hmax, hmem, hdom⟩ := maxLex_spec x xs
    have hm4 := h4 m hmem
    unfold isSid4 at hm4
    cases hdata : m.data with
    | nil =>
      rw [hdata] at hm4
      simp at hm4
    | cons c ds =>
      rw [hdata] at hm4
      simp only [Bool.and_eq_true, decide_eq_true_eq] at hm4
      obtain ⟨⟨hcS, hlen⟩, hdig⟩ := hm4
      subst hcS
      have hds_ne : ds ≠ [] := by
        intro h
        rw [h] at hlen
        simp at hlen
      have hparse : parseNat? ds = some (valDigits ds) := parseNat?_digits ds hds_ne hdig
      have hval : sidVal m = valDigits ds := by
        unfold sidVal
        rw [hdata]
      refine ⟨m, hmem, ?_, ?_⟩
      · intro y hy
        have hy4 := h4 y hy
        unfold isSid4 at hy4
        cases hydata : y.data with
        | nil =>
          rw [hydata] at hy4
          simp at hy4
        | cons cy es =>
          rw [hydata] at hy4
          simp only [Bool.and_eq_true, decide_eq_true_eq] at hy4
          obtain ⟨⟨hcyS, hylen⟩, hydig⟩ := hy4
          subst hcyS
          have hlex := hdom y hy
          rw [hydata, hdata] at hlex
          rw [lexLe, if_pos rfl] at hlex
          have hle := lexLe_val_le es ds (hylen.trans hlen.symm) hydig hdig hlex
          have hvy : sidVal y = valDigits es := by
            unfold sidVal
            rw [hydata]
          rw [hvy, hval]
          exact hle
      · unfold get_next_student_id
        rw [hmax]
        dsimp only
        rw [hdata]
        dsimp only
        rw [if_pos rfl, hparse]
        dsimp only
        rw [hval]

/-- The identifier produced by `get_next_student_id` is never already in
a store whose identifiers are all `S` plus four digits. -/
theorem getNext_fresh (ids : List String) (h4 : ∀ x ∈ ids, isSid4 x = true) :
    get_next_student_id ids ∉ ids := by
  cases ids with
  | nil => exact List.not_mem_nil _
  | cons x xs =>
    obtain ⟨m, hmem, hdom, heq⟩ := getNext_spec (x :: xs) (by simp) h4
    rw [heq]
    intro hin
    have hv : sidVal ⟨'S' :: pad4 (sidVal m + 1)⟩ = sidVal m + 1 := by
      have hmk : sidVal ⟨'S' :: pad4 (sidVal m + 1)⟩ = valDigits (pad4 (sidVal m + 1)) := rfl
      rw [hmk]
      exact valDigits_pad4 (sidVal m + 1)
    have := hdom _ hin
    rw [hv] at this
    omega

/-- C10: on every store in which each identifier is `S` followed by
exactly four digits, the generator returns `S` plus the zero-padded
successor of the greatest stored identifier, and that identifier is not
already stored; the empty store gives S0001; and because the maximum is
taken in lexicographic string order, freshness fails once identifiers
exceed four digits: with store [S10000, S9999] the lexicographic
maximum is S9999 and the generated S10000 collides with a stored row. -/
theorem c10_get_next_student_id (ids : List String) (hne : ids ≠ [])
    (h4 : ∀ x ∈ ids, isSid4 x = true) :
    (∃ m ∈ ids, (∀ x ∈ ids, sidVal x ≤ sidVal m) ∧
      get_next_student_id ids = ⟨'S' :: pad4 (sidVal m + 1)⟩) ∧
    get_next_student_id ids ∉ ids ∧
    get_next_student_id [] = "S0001" ∧
    get_next_student_id ["S10000", "S9999"] = "S10000" ∧
    "S10000" ∈ ["S10000", "S9999"] :=
  ⟨getNext_spec ids hne h4, getNext_fresh ids h4, rfl, by decide, by decide⟩

/-- C10 witness: the statement on the concrete store [S0001, S0007]. -/
theorem c10_get_next_student_id_witness :
    (∃ m ∈ ["S0001", "S0007"], (∀ x ∈ ["S0001", "S0007"], sidVal x ≤ sidVal m) ∧
      get_next_student_id ["S0001", "S0007"] = ⟨'S' :: pad4 (sidVal m + 1)⟩) ∧
    get_next_student_id ["S0001", "S0007"] ∉ ["S0001", "S0007"] ∧
    get_next_student_id [] = "S0001" ∧
    get_next_student_id ["S10000", "S9999"] = "S10000" ∧
    "S10000" ∈ ["S10000", "S9999"] :=
  c10_get_next_student_id ["S0001", "S0007"] (by simp) (by decide)

/-! ## C9: identifier assignment over an import batch -/

theorem assignIdsAux_length :
    ∀ (rows : List (Option String)) (idx : ℕ) (seen : List String),
      (assignIdsAux rows idx seen).length = rows.length := by
  intro rows
  induction rows with
  | nil => intro idx seen; rfl
  | cons r rs ih =>
    intro idx seen
    rw [assignIdsAux]
    rw [List.length_cons, List.length_cons, ih]

/-- The selection rule, row by row: a usable provided value is kept
unless it already appears among the earlier outputs of the batch, in
which case (as when no usable value is provided) the index-based form is
used. -/
theorem assignIdsAux_get :
    ∀ (rows : List (Option String)) (idx : ℕ) (seen : List String)
      (i : ℕ) (r : Option String), rows.get? i = some r →
      (assignIdsAux rows idx seen).get? i = some (
        match normProvided r with
        | some v => if v ∈ seen ∨ v ∈ (assignIdsAux rows idx seen).take i
                    then fallbackId (idx + i) else v
        | none => fallbackId (idx + i)) := by
  intro rows
  induction rows with
  | nil =>
    intro idx seen i r h
    simp at h
  | cons r0 rs ih =>
    intro idx seen i r h
    cases i with
    | zero =>
      rw [List.get?_cons_zero] at h
      injection h with h
      subst h
      rw [assignIdsAux]
      rw [List.get?_cons_zero]
      congr 1
      unfold chooseId
      cases hnp : normProvided r0 with
      | some v =>
        dsimp only
        rw [Nat.add_zero, List.take_zero]
        simp only [List.not_mem_nil, or_false]
        rw [Nat.add_zero]
      | none =>
        dsimp only
        rw [Nat.add_zero]
        split_ifs <;> rfl
    | succ i =>
      rw [List.get?_cons_succ] at h
      rw [assignIdsAux]
      rw [List.get?_cons_succ]
      rw [ih (idx + 1) (chooseId r0 idx seen :: seen) i r h]
      congr 1
      have harith : idx + 1 + i = idx + (i + 1) := by omega
      cases hnp : normProvided r with
      | none =>
        dsimp only
        rw [harith]
      | some v =>
        dsimp only
        rw [harith, List.take_succ_cons]
        refine if_congr ?_ rfl rfl
        rw [List.mem_cons, List.mem_cons]
        tauto

/-- Distinctness of the chosen identifiers, provided no usable provided
value collides with an index-based form of the batch. -/
theorem assignIdsAux_nodup :
    ∀ (rows : List (Option String)) (idx : ℕ) (seen : List String),
      (∀ r ∈ rows, ∀ v, normProvided r = some v →
        ∀ k, idx ≤ k → k < idx + rows.length → v ≠ fallbackId k) →
      (∀ x ∈ seen, ∀ k, idx ≤ k → k < idx + rows.length → x ≠ fallbackId k) →
      (assignIdsAux rows idx seen).Nodup ∧
        ∀ x ∈ assignIdsAux rows idx seen, x ∉ seen := by
  intro rows
  induction rows with
  | nil =>
    intro idx seen _ _
    exact ⟨List.nodup_nil, by simp [assignIdsAux]⟩
  | cons r rs ih =>
    intro idx seen hrows hseen
    rw [assignIdsAux]
    have hlen : idx + (r :: rs).length = idx + 1 + rs.length := by
      rw [List.length_cons]
      omega
    have hid : chooseId r idx seen ∉ seen ∧
        (∀ k, idx + 1 ≤ k → k < idx + 1 + rs.length →
          chooseId r idx seen ≠ fallbackId k) := by
      unfold chooseId
      cases hnp : normProvided r with
      | some v =>
        dsimp only
        by_cases hv : v ∈ seen
        · rw [if_pos hv]
          constructor
          · intro hc
            exact hseen _ hc idx (Nat.le_refl idx) (by rw [List.length_cons]; omega) rfl
          · intro k hk1 hk2 hc
            have := fallbackId_inj hc
            omega
        · rw [if_neg hv]
          refine ⟨hv, ?_⟩
          intro k hk1 hk2
          exact hrows r (List.mem_cons_self r rs) v hnp k (by omega) (by omega)
      | none =>
        dsimp only
        have hsimp : (if fallbackId idx ∈ seen then fallbackId idx else fallbackId idx) =
            fallbackId idx := by
          split_ifs <;> rfl
        rw [hsimp]
        constructor
        · intro hc
          exact hseen _ hc idx (Nat.le_refl idx) (by rw [List.length_cons]; omega) rfl
        · intro k hk1 hk2 hc
          have := fallbackId_inj hc
          omega
    obtain ⟨hid_notin, hid_fb⟩ := hid
    have hrec := ih (idx + 1) (chooseId r idx seen :: seen)
      (fun r' hr' v hv k hk1 hk2 =>
        hrows r' (List.mem_cons_of_mem r hr') v hv k (by omega) (by omega))
      (by
        intro x hx k hk1 hk2
        rcases List.mem_cons.mp hx with hx1 | hx1
        · rw [hx1]
          exact hid_fb k hk1 hk2
        · exact hseen x hx1 k (by omega) (by omega))
    obtain ⟨hnd, hdisj⟩ := hrec
    constructor
    · rw [List.nodup_cons]
      refine ⟨?_, hnd⟩
      intro hc
      exact hdisj _ hc (List.mem_cons_self _ _)
    · intro x hx
      rcases List.mem_cons.mp hx with hx1 | hx1
      · rw [hx1]
        exact hid_notin
      · intro hc
        exact hdisj x hx1 (List.mem_cons_of_mem _ hc)

/-- C9 counterexample: when row 0 provides the value S0002 and row 1
provides nothing, row 1 falls back to its index-based form S0002, which
collides with row 0 and is used anyway, so the batch identifiers are not
pairwise distinct. -/
theorem c9_duplicate_identifier_counterexample :
    assignIds [some "S0002", none] = ["S0002", "S0002"] ∧
    ¬ (assignIds [some "S0002", none]).Nodup := by
  constructor
  · decide
  · decide

/-- C9 amended: each row keeps its provided identifier when usable and
not already used in the batch, and otherwise receives the index-based
form S followed by the row index plus one zero-padded to four digits,
which is used even when it collides with an earlier identifier; the
identifiers are pairwise distinct whenever no usable provided identifier
coincides with an index-based form of the batch. -/
theorem c9_import_identifiers (rows : List (Option String)) :
    (assignIds rows).length = rows.length ∧
    (∀ i r, rows.get? i = some r →
      (assignIds rows).get? i = some (
        match normProvided r with
        | some v => if v ∈ (assignIds rows).take i then fallbackId i else v
        | none => fallbackId i)) ∧
    (providedOk rows → (assignIds rows).Nodup) := by
  refine ⟨assignIdsAux_length rows 0 [], ?_, ?_⟩
  · intro i r h
    have hg := assignIdsAux_get rows 0 [] i r h
    unfold assignIds
    rw [hg]
    congr 1
    cases normProvided r with
    | some v =>
      dsimp only
      rw [Nat.zero_add]
      refine if_congr ?_ rfl rfl
      simp only [List.not_mem_nil, false_or]
    | none =>
      dsimp only
      rw [Nat.zero_add]
  · intro hp
    exact (assignIdsAux_nodup rows 0 []
      (fun r hr v hv k _ hk2 => hp r hr v hv k (by omega))
      (by intro x hx; simp at hx)).1

/-- C9 witness: the amended statement on the batch of a usable provided
identifier X and one missing identifier. -/
theorem c9_import_identifiers_witness :
    (assignIds [some "X", none]).length = ([some "X", none] : List (Option String)).length ∧
    (∀ i r, ([some "X", none] : List (Option String)).get? i = some r →
      (assignIds [some "X", none]).get? i = some (
        match normProvided r with
        | some v => if v ∈ (assignIds [some "X", none]).take i then fallbackId i else v
        | none => fallbackId i)) ∧
    (assignIds [some "X", none]).Nodup := by
  have h := c9_import_identifiers [some "X", none]
  refine ⟨h.1, h.2.1, h.2.2 ?_⟩
  intro r hr v hv k hk
  have hk2 : k < 2 := by simpa using hk
  clear hk
  simp only [List.mem_cons, List.not_mem_nil, or_false] at hr
  rcases hr with hr | hr
  · subst hr
    rw [show normProvided (some "X") = some "X" by decide] at hv
    injection hv with hv
    subst hv
    interval_cases k
    · decide
    · decide
  · subst hr
    rw [show normProvided none = (none : Option String) by rfl] at hv
    exact absurd hv (by simp)

/-! ## C4: the 60-student section capacity -/

/-- C4: when every stored identifier is S plus four digits (as both the
importer and the generator produce), a teacher-initiated creation with a
nonempty name succeeds whenever the (grade, section) pair holds fewer
than 60 students, appending exactly one student to the pair (so the
60th student can be added), and is rejected with the table unchanged as
soon as the pair holds 60 students (the 61st is refused). -/
theorem c4_section_capacity (store : List Student) (tgrade : ℤ) (tsect : String)
    (name gender race parental lunch tprep : String) (att : ℚ) (s : ℕ)
    (hname : name ≠ "")
    (hids : ∀ t ∈ store, isSid4 t.student_id = true) :
    (store.countP (fun t => decide (t.grade_level = tgrade) && decide (t.sect = tsect)) < 60 →
      (teacher_add_student store tgrade tsect name gender race parental lunch tprep att s).2 = true ∧
      (teacher_add_student store tgrade tsect name gender race parental lunch tprep att s).1.length =
        store.length + 1 ∧
      (teacher_add_student store tgrade tsect name gender race parental lunch tprep att s).1.countP
          (fun t => decide (t.grade_level = tgrade) && decide (t.sect = tsect)) =
        store.countP (fun t => decide (t.grade_level = tgrade) && decide (t.sect = tsect)) + 1) ∧
    (60 ≤ store.countP (fun t => decide (t.grade_level = tgrade) && decide (t.sect = tsect)) →
      (teacher_add_student store tgrade tsect name gender race parental lunch tprep att s).2 = false ∧
      (teacher_add_student store tgrade tsect name gender race parental lunch tprep att s).1 = store) := by
  have hfresh : get_next_student_id (store.map Student.student_id) ∉
      store.map Student.student_id := by
    apply getNext_fresh
    intro x hx
    rw [List.mem_map] at hx
    obtain ⟨t, ht, rfl⟩ := hx
    exact hids t ht
  have hany : store.any
      (fun t => t.student_id = get_next_student_id (store.map Student.student_id)) = false := by
    rw [List.any_eq_false]
    intro t ht hc
    rw [decide_eq_true_eq] at hc
    exact hfresh (List.mem_map.mpr ⟨t, ht, hc⟩)
  constructor
  · intro hcnt
    unfold teacher_add_student
    rw [if_neg (by omega), if_neg hname, if_neg (by rw [hany]; simp)]
    refine ⟨rfl, ?_, ?_⟩
    · rw [List.length_append]
      rfl
    · rw [List.countP_append, List.countP_cons, List.countP_nil]
      simp
  · intro hcnt
    unfold teacher_add_student
    rw [if_pos hcnt]
    exact ⟨rfl, rfl⟩

/-- C4 witness: on the empty table (zero students at grade 9 section A)
the creation succeeds and stores one matching student; the capacity
rejection branch is vacuous there. -/
theorem c4_section_capacity_witness :
    (([] : List Student).countP
        (fun t => decide (t.grade_level = 9) && decide (t.sect = "A")) < 60 →
      (teacher_add_student [] 9 "A" "Bob" "male" "group A" "high school" "standard" "none" 100 0).2 = true ∧
      (teacher_add_student [] 9 "A" "Bob" "male" "group A" "high school" "standard" "none" 100 0).1.length =
        ([] : List Student).length + 1 ∧
      (teacher_add_student [] 9 "A" "Bob" "male" "group A" "high school" "standard" "none" 100 0).1.countP
          (fun t => decide (t.grade_level = 9) && decide (t.sect = "A")) =
        ([] : List Student).countP
          (fun t => decide (t.grade_level = 9) && decide (t.sect = "A")) + 1) ∧
    (60 ≤ ([] : List Student).countP
        (fun t => decide (t.grade_level = 9) && decide (t.sect = "A")) →
      (teacher_add_student [] 9 "A" "Bob" "male" "group A" "high school" "standard" "none" 100 0).2 = false ∧
      (teacher_add_student [] 9 "A" "Bob" "male" "group A" "high school" "standard" "none" 100 0).1 = []) :=
  c4_section_capacity [] 9 "A" "Bob" "male" "group A" "high school" "standard" "none" 100 0
    (by decide) (by simp)

/-! ## C6: determinism and force-replace semantics of the import -/

/-- C6: the import pipeline is one fixed function of the input rows
(the generator is an explicit deterministic stream started from the
fixed seed at process start, so two runs over the same input produce
bit-identical synthesized records); when the synthesized batch is
non-empty, a forced import first deletes all stored students and then
inserts the batch, so its result does not depend on the prior store;
and running the forced import twice yields exactly the state of
running it once (on an empty batch the guard of app.py line 417 skips
the delete and both runs leave the store untouched). -/
theorem c6_import_determinism (rows : List RawRow) (st st' : List Student) :
    importRows rows = importRows rows ∧
    ((importRows rows).isEmpty = false →
      init_database true true st rows = init_database true true st' rows) ∧
    init_database true true (init_database true true st rows) rows =
      init_database true true st rows := by
  have hred : ∀ t : List Student, init_database true true t rows =
      if (importRows rows).isEmpty then t
      else importInto [] (importRows rows) := by
    intro t
    rfl
  refine ⟨rfl, ?_, ?_⟩
  · intro hne
    rw [hred st, hred st', hne]
    simp
  · rw [hred st]
    rw [hred]
    by_cases he : (importRows rows).isEmpty <;> simp [he]

end App
